import Mathlib

/-!
# Verification of the Woland parser (`src/parser.rs`)

Shallow embedding of the nom-based parser in `src/parser.rs`.

A nom parser over `&str` is a pure function from the remaining input to
either `Ok((remaining, value))` or an error; we model it as
`Input → Option (Input × α)` with `Input := List Char`.  Failure carries
no parse state, matching nom's backtracking semantics (an error never
advances the input handed to the next alternative).

Modelling notes, tied to nom 7 semantics used by the source:
* `alt` tries alternatives in order on the same input.
* `many0`/`many1`/`fold_many0` are greedy and return an *error* when the
  inner parser succeeds without consuming input (nom's `ErrorKind::Many0`
  infinite-loop guard).  We realise the loop with an internal fuel that
  starts above the input length; since every continuing iteration consumes
  at least one character, the fuel never runs out, and the kernel can
  evaluate the definitions.
* `character::complete::i64` parses an optional sign, then one or more
  decimal digits, and fails when the value leaves the `i64` range.
* `alpha1`, `alphanumeric1`, `multispace0`, `space0` are the ASCII
  character classes documented by nom.
* The mutually recursive grammar rules (`expr`/`call`/`instr`/…) take an
  explicit fuel argument, decremented at every rule entry; every claim is
  stated either for all fuels or at a fuel large enough for the input.
-/

abbrev Input := List Char

def Parser (α : Type) : Type := Input → Option (Input × α)

/-- Shorthand: the character list of a string literal. -/
def s (x : String) : Input := x.data

/-! ## Core combinators (nom counterparts) -/

def pfail {α : Type} : Parser α := fun _ => none

def ppure {α : Type} (a : α) : Parser α := fun i => some (i, a)

def pbind {α β : Type} (p : Parser α) (f : α → Parser β) : Parser β := fun i =>
  match p i with
  | none => none
  | some (r, a) => f a r

def pmap {α β : Type} (f : α → β) (p : Parser α) : Parser β := fun i =>
  match p i with
  | none => none
  | some (r, a) => some (r, f a)

/-- nom's `alt`: ordered alternation, every alternative tried on the same
original input. -/
def alt {α : Type} : List (Parser α) → Parser α
  | [] => pfail
  | p :: ps => fun i =>
    match p i with
    | none => alt ps i
    | some x => some x

/-- nom's `opt`: never fails. -/
def opt {α : Type} (p : Parser α) : Parser (Option α) := fun i =>
  match p i with
  | none => some (i, none)
  | some (r, a) => some (r, some a)

/-- nom's `verify`. -/
def verify {α : Type} (p : Parser α) (f : α → Bool) : Parser α := fun i =>
  match p i with
  | none => none
  | some (r, a) => if f a then some (r, a) else none

/-- nom's `recognize`: returns the consumed slice. -/
def recognize {α : Type} (p : Parser α) : Parser (List Char) := fun i =>
  match p i with
  | none => none
  | some (r, _) => some (r, i.take (i.length - r.length))

/-- nom's `tag`. -/
def tag (t : List Char) : Parser (List Char) := fun i =>
  if t.isPrefixOf i then some (i.drop t.length, t) else none

/-- nom's `char`. -/
def chr (c : Char) : Parser Char := fun i =>
  match i with
  | [] => none
  | d :: r => if d = c then some (r, c) else none

/-- Zero-or-more characters satisfying `f` (never fails). -/
def takeWhile0 (f : Char → Bool) : Parser (List Char) := fun i =>
  some (i.dropWhile f, i.takeWhile f)

/-- One-or-more characters satisfying `f`. -/
def takeWhile1 (f : Char → Bool) : Parser (List Char) := fun i =>
  match i with
  | [] => none
  | c :: _ => if f c then some (i.dropWhile f, i.takeWhile f) else none

/-- nom's `none_of`. -/
def noneOf (bad : List Char) : Parser Char := fun i =>
  match i with
  | [] => none
  | c :: r => if bad.contains c then none else some (r, c)

/-- nom's `is_not`: longest nonempty prefix avoiding the set. -/
def isNot (bad : List Char) : Parser (List Char) :=
  takeWhile1 (fun c => !(bad.contains c))

/-- nom's `take_until`: consume up to (excluding) the first occurrence of
`t`; fail when `t` never occurs. -/
def takeUntil (t : List Char) : Parser (List Char) := fun i => takeUntilGo t i
where
  takeUntilGo (t : List Char) : Input → Option (Input × List Char)
    | [] => if t.isPrefixOf ([] : Input) then some ([], []) else none
    | c :: r =>
      if t.isPrefixOf (c :: r) then some (c :: r, [])
      else
        match takeUntilGo t r with
        | none => none
        | some (rest, pre) => some (rest, c :: pre)

/-- The loop body of nom's `many0`, with explicit fuel.  A success of the
inner parser that does not consume input is an error, as in nom. -/
def many0Go {α : Type} (p : Parser α) : Nat → Input → Option (Input × List α)
  | 0, _ => none
  | fuel + 1, i =>
    match p i with
    | none => some (i, [])
    | some (r, a) =>
      if r.length < i.length then
        match many0Go p fuel r with
        | none => none
        | some (r2, as) => some (r2, a :: as)
      else none

/-- nom's `many0` (also used for `fold_many0`). -/
def many0 {α : Type} (p : Parser α) : Parser (List α) := fun i =>
  many0Go p (i.length + 1) i

/-- nom's `many1`: one application, then the `many0` loop. -/
def many1 {α : Type} (p : Parser α) : Parser (List α) := fun i =>
  match p i with
  | none => none
  | some (r, a) =>
    match many0 p r with
    | none => none
    | some (r2, as) => some (r2, a :: as)

/-! ### Derived sequencing combinators -/

def terminated {α β : Type} (p : Parser α) (q : Parser β) : Parser α :=
  pbind p (fun a => pmap (fun _ => a) q)

def preceded {α β : Type} (p : Parser α) (q : Parser β) : Parser β :=
  pbind p (fun _ => q)

def delimitedP {α β γ : Type} (p : Parser α) (q : Parser β) (r : Parser γ) : Parser β :=
  preceded p (terminated q r)

def pairP {α β : Type} (p : Parser α) (q : Parser β) : Parser (α × β) :=
  pbind p (fun a => pmap (fun b => (a, b)) q)

def sepPair {α β γ : Type} (p : Parser α) (sep : Parser β) (q : Parser γ) :
    Parser (α × γ) :=
  pbind p (fun a => preceded sep (pmap (fun b => (a, b)) q))

def pvalue {α β : Type} (b : β) (p : Parser α) : Parser β :=
  pmap (fun _ => b) p

/-! ## Character classes and token-level rules -/

def isMultispace (c : Char) : Bool :=
  c == ' ' || c == '\t' || c == '\r' || c == '\n'

def isLinespace (c : Char) : Bool := c == ' ' || c == '\t'

/-- nom's `multispace0`. -/
def multispace0 : Parser (List Char) := takeWhile0 isMultispace

/-- nom's `space0`. -/
def space0 : Parser (List Char) := takeWhile0 isLinespace

/-- nom's `newline`. -/
def newlineP : Parser Char := chr '\n'

def alpha1 : Parser (List Char) := takeWhile1 Char.isAlpha

def alphanumeric1 : Parser (List Char) := takeWhile1 Char.isAlphanum

def digit1 : Parser (List Char) := takeWhile1 Char.isDigit

/-- `fn ws` from the source: run the rule, then trim trailing whitespace. -/
def ws {α : Type} (p : Parser α) : Parser α := terminated p multispace0

/-- Optional sign of nom's signed-integer parsers. -/
def signSplit (i : Input) : Int × Input :=
  match i with
  | [] => (1, [])
  | c :: r => if c = '+' then (1, r) else if c = '-' then (-1, r) else (1, i)

def digitsToNat (ds : List Char) : Nat :=
  ds.foldl (fun acc c => 10 * acc + (c.toNat - '0'.toNat)) 0

/-- nom's `character::complete::i64`: optional sign, one-or-more digits,
failure outside the 64-bit signed range. -/
def i64P : Parser Int := fun i =>
  match digit1 (signSplit i).2 with
  | none => none
  | some (r, ds) =>
    if -9223372036854775808 ≤ (signSplit i).1 * (digitsToNat ds : Int) ∧
        (signSplit i).1 * (digitsToNat ds : Int) ≤ 9223372036854775807 then
      some (r, (signSplit i).1 * (digitsToNat ds : Int))
    else none

/-! ## AST model

`src/parser.rs` builds values of `crate::ast` (file not present under
`src/`).  Modelled from the spec: §3's data model (Program as a mapping
from declaration name to Declaration constructed in source order — here an
association list —, Declaration/Function/Signature, Statement variants,
Expression variants, Primitive literals, Keyword markers), with the field
shapes fixed by their construction sites in `src/parser.rs`.  The `Call`
and `Branch` wrapper structs are flattened into constructor fields.
-/

inductive Prim : Type
  | i64 (n : Int)
  | bool (b : Bool)
  | str (cs : List Char)

inductive Expr : Type
  | prim (p : Prim)
  | name (n : List Char)
  | call (funcName : List Char) (args : List Expr)

inductive Keyword : Type
  | brk
  | ellipsis

inductive Instr : Type
  | expr (e : Expr)
  | bind (id : List Char) (ty : List Char) (e : Expr)
  | mutBind (id : List Char) (ty : List Char) (e : Expr)
  | assign (nm : List Char) (e : Expr)
  | branch (paths : List (Expr × List Instr))
  | loop (body : List Instr)
  | keyword (k : Keyword)

structure Kind : Type where
  params : List (List Char × List Char)
  ret : List Char

structure Func : Type where
  kind : Kind
  body : List Instr

inductive Decl : Type
  | func (f : Func)

structure AST : Type where
  decls : List (List Char × Decl)

/-! ## Grammar rules (transliterated from `src/parser.rs`) -/

/-- `fn prim`: booleans before integers. -/
def prim : Parser Expr :=
  alt [pmap (fun b => Expr.prim (Prim.bool b))
        (alt [pvalue true (tag (s "true")), pvalue false (tag (s "false"))]),
       pmap (fun n => Expr.prim (Prim.i64 n)) i64P]

/-- `fn string`: double-quoted, no escapes. -/
def stringP : Parser Expr :=
  pmap (fun cs => Expr.prim (Prim.str cs))
    (delimitedP (chr '"') (many0 (noneOf ['"'])) (chr '"'))

def nameKeywords : List (List Char) :=
  [s "let", s "end", s "true", s "false", s "if", s "then", s "else",
   s "loop", s "break"]

/-- First character of `fn name`: `alt((alpha1, tag("_")))`. -/
def identHeadP : Parser (List Char) := alt [alpha1, tag (s "_")]

/-- Continuation characters of `fn name`: `alt((alphanumeric1, tag("_")))`. -/
def identStepP : Parser (List Char) := alt [alphanumeric1, tag (s "_")]

/-- The `many0` over `identStepP` inside `fn name`. -/
def identTailP : Parser (List (List Char)) := many0 identStepP

/-- The `recognize(pair(...))` part of `fn name`. -/
def identRaw : Parser (List Char) := recognize (pairP identHeadP identTailP)

/-- `fn name`: identifier, rejecting the reserved-word list. -/
def name : Parser (List Char) :=
  verify identRaw (fun w => !(nameKeywords.contains w))

/-- `fn name_typed`: both parentheses independently optional. -/
def name_typed : Parser (List Char × List Char) :=
  delimitedP (opt (ws (chr '(')))
    (sepPair (ws name) (ws (chr ':')) name)
    (opt (ws (chr ')')))

/-- `fn kind`. -/
def kind : Parser Kind :=
  preceded (ws (chr ':'))
    (pbind (many0 (terminated (ws name_typed) (ws (tag (s "->")))))
      (fun ps => pmap (fun ret => Kind.mk ps ret) (ws name)))

/-- `fn keyword`. -/
def keyword : Parser Keyword :=
  alt [pvalue Keyword.brk (tag (s "break")),
       pvalue Keyword.ellipsis (tag (s "..."))]

/-- The selection between `Instr::MutBind` and `Instr::Bind` at the end of
`fn bind`. -/
def mkBind (mutO : Option (List Char)) (it : List Char × List Char) (e : Expr) : Instr :=
  match mutO with
  | some _ => Instr.mutBind it.1 it.2 e
  | none => Instr.bind it.1 it.2 e

/-- The binder alternation `alt((ws(tag("~")), ws(tag("="))))` shared by
`func`, `bind` and `assign`. -/
def binderP : Parser (List Char) := alt [ws (tag (s "~")), ws (tag (s "="))]

mutual

/-- `fn expr`. -/
def exprF : Nat → Parser Expr
  | 0 => pfail
  | n + 1 =>
    terminated
      (alt [delimitedP (ws (chr '('))
              (alt [ws prim, pmap Expr.name (ws name), ws (callF n), ws stringP])
              (chr ')'),
            alt [prim, pmap Expr.name name, callF n, stringP]])
      space0

/-- `fn call`: `@` sigil, callee name, whitespace-separated arguments. -/
def callF : Nat → Parser Expr
  | 0 => pfail
  | n + 1 =>
    pbind (chr '@') (fun _ =>
      pbind name (fun fn =>
        pbind space0 (fun _ =>
          pmap (fun args => Expr.call fn args)
            (many0 (terminated (exprF n) space0)))))

/-- Binder then expression then newline: the tail shared by `fn bind` and
`fn assign` after their respective prefixes. -/
def binderExprNl : Nat → Parser Expr
  | 0 => pfail
  | n + 1 =>
    pbind binderP (fun _ =>
      pbind (exprF n) (fun e0 => pvalue e0 newlineP))

/-- `fn bind`. -/
def bindF : Nat → Parser Instr
  | 0 => pfail
  | n + 1 =>
    pbind (ws (tag (s "let"))) (fun _ =>
      pbind (opt (ws (tag (s "mut")))) (fun mutO =>
        pbind (ws name_typed) (fun it =>
          pmap (mkBind mutO it) (binderExprNl n))))

/-- `fn assign`. -/
def assignF : Nat → Parser Instr
  | 0 => pfail
  | n + 1 =>
    pbind (ws name) (fun nm =>
      pmap (fun e => Instr.assign nm e) (binderExprNl n))

/-- The `if … then …` head pair of `fn branch`. -/
def branchHead : Nat → Parser (Expr × List Instr)
  | 0 => pfail
  | n + 1 =>
    pairP (preceded (ws (tag (s "if"))) (ws (exprF n)))
      (preceded (ws (tag (s "then"))) (many1 (ws (instrF n))))

/-- The `elsif … then …` groups of `fn branch`. -/
def branchMiddle : Nat → Parser (List (Expr × List Instr))
  | 0 => pfail
  | n + 1 =>
    many0 (pairP (preceded (ws (tag (s "elsif"))) (ws (exprF n)))
      (preceded (ws (tag (s "then"))) (many1 (ws (instrF n)))))

/-- The optional `else` group of `fn branch`. -/
def branchElse : Nat → Parser (Option (List Instr))
  | 0 => pfail
  | n + 1 => opt (preceded (ws (tag (s "else"))) (many1 (ws (instrF n))))

/-- `fn branch`, returning the `paths` field of the produced `Branch`. -/
def branchF : Nat → Parser (List (Expr × List Instr))
  | 0 => pfail
  | n + 1 =>
    pbind (branchHead n) (fun hd =>
      pbind (branchMiddle n) (fun mid =>
        pbind (branchElse n) (fun lastO =>
          pvalue (hd :: mid ++
              (match lastO with
               | some is => [(Expr.prim (Prim.bool true), is)]
               | none => []))
            (ws (tag (s "end"))))))

/-- `fn loop_`, returning the body. -/
def loopF : Nat → Parser (List Instr)
  | 0 => pfail
  | n + 1 =>
    pbind (ws (tag (s "loop"))) (fun _ =>
      pbind (many1 (ws (instrF n))) (fun body =>
        pvalue body (ws (tag (s "end")))))

/-- First alternative of `fn instr`: expression then newline. -/
def instrAlt1 : Nat → Parser Instr
  | 0 => pfail
  | n + 1 => terminated (pmap Instr.expr (exprF n)) newlineP

/-- Second alternative of `fn instr`: `ws(assign)`. -/
def instrAlt2 : Nat → Parser Instr
  | 0 => pfail
  | n + 1 => ws (assignF n)

/-- Third alternative of `fn instr`: `ws(bind)`. -/
def instrAlt3 : Nat → Parser Instr
  | 0 => pfail
  | n + 1 => ws (bindF n)

/-- Fourth alternative of `fn instr`: `into(ws(branch))`. -/
def instrAlt4 : Nat → Parser Instr
  | 0 => pfail
  | n + 1 => pmap Instr.branch (ws (branchF n))

/-- Fifth alternative of `fn instr`: `into(ws(loop_))`. -/
def instrAlt5 : Nat → Parser Instr
  | 0 => pfail
  | n + 1 => pmap Instr.loop (ws (loopF n))

/-- Sixth alternative of `fn instr`: keyword then newline. -/
def instrAlt6 : Nat → Parser Instr
  | 0 => pfail
  | _ + 1 => terminated (pmap Instr.keyword keyword) newlineP

/-- `fn instr`: the statement rule's ordered alternation. -/
def instrF : Nat → Parser Instr
  | 0 => pfail
  | n + 1 =>
    alt [instrAlt1 n, instrAlt2 n, instrAlt3 n, instrAlt4 n, instrAlt5 n,
         instrAlt6 n]

end

/-- Binder then one-or-more statements then `end`: the tail of `fn func`
after the signature. -/
def binderBody (n : Nat) : Parser (List Instr) :=
  pbind binderP (fun _ =>
    pbind (many1 (ws (instrF n))) (fun body =>
      pvalue body (ws (tag (s "end")))))

/-- `fn func`. -/
def func (n : Nat) : Parser (List Char × Decl) :=
  pbind (ws (tag (s "let"))) (fun _ =>
    pbind (ws name) (fun nm =>
      pbind (ws kind) (fun k =>
        pmap (fun body => (nm, Decl.func (Func.mk k body))) (binderBody n))))

/-- `fn ast`: one-or-more declarations, remainder returned unchecked. -/
def ast (n : Nat) : Parser AST :=
  pmap (fun ds => AST.mk ds) (many1 (func n))

/-! ### Comment rules (defined in the source, invoked by no grammar rule) -/

/-- `fn eol_comment`. -/
def eol_comment : Parser Unit :=
  pvalue () (pairP (tag (s "//")) (isNot ['\n', '\r']))

/-- `fn inline_comment`. -/
def inline_comment : Parser Unit :=
  pvalue () (pbind (tag (s "/*")) (fun _ =>
    pbind (takeUntil (s "*/")) (fun _ => pvalue () (tag (s "*/")))))

/-- One iteration of `fn whitespace`'s `many0`. -/
def wsCommentStep : Parser Unit :=
  alt [eol_comment, pvalue () multispace0]

/-- `fn whitespace`. -/
def whitespace : Parser Unit := pvalue () (many0 wsCommentStep)

/-! ## Soundness: success leaves a suffix of the input

In nom, a rule either succeeds — returning the remaining input, always a
suffix of what it was given — or fails without touching the input.  The
`Sound` predicate captures the success half; failure is `none` by
construction.
-/

def Sound {α : Type} (p : Parser α) : Prop :=
  ∀ i r a, p i = some (r, a) → r <:+ i

theorem sound_pfail {α : Type} : Sound (pfail (α := α)) := by
  intro i r a h
  exact absurd h (by simp [pfail])

theorem sound_ppure {α : Type} (a : α) : Sound (ppure a) := by
  intro i r b h
  simp only [ppure, Option.some.injEq, Prod.mk.injEq] at h
  rw [← h.1]

theorem sound_pmap {α β : Type} {p : Parser α} (f : α → β) (hp : Sound p) :
    Sound (pmap f p) := by
  intro i r b h
  unfold pmap at h
  cases hpi : p i with
  | none => rw [hpi] at h; exact absurd h (by simp)
  | some x =>
    rw [hpi] at h
    simp only [Option.some.injEq, Prod.mk.injEq] at h
    exact h.1 ▸ hp i x.1 x.2 (by rw [hpi])

theorem sound_pbind {α β : Type} {p : Parser α} {f : α → Parser β}
    (hp : Sound p) (hf : ∀ a, Sound (f a)) : Sound (pbind p f) := by
  intro i r b h
  unfold pbind at h
  cases hpi : p i with
  | none => rw [hpi] at h; exact absurd h (by simp)
  | some x =>
    rw [hpi] at h
    exact (hf x.2 x.1 r b h).trans (hp i x.1 x.2 (by rw [hpi]))

theorem sound_alt_nil {α : Type} : Sound (alt ([] : List (Parser α))) := by
  intro i r a h
  exact absurd h (by simp [alt, pfail])

theorem sound_alt_cons {α : Type} {p : Parser α} {ps : List (Parser α)}
    (hp : Sound p) (hps : Sound (alt ps)) : Sound (alt (p :: ps)) := by
  intro i r a h
  unfold alt at h
  cases hpi : p i with
  | none => rw [hpi] at h; exact hps i r a h
  | some x =>
    rw [hpi] at h
    simp only [Option.some.injEq] at h
    exact hp i r a (by rw [hpi, h])

theorem sound_opt {α : Type} {p : Parser α} (hp : Sound p) : Sound (opt p) := by
  intro i r a h
  unfold opt at h
  cases hpi : p i with
  | none =>
    rw [hpi] at h
    simp only [Option.some.injEq, Prod.mk.injEq] at h
    rw [← h.1]
  | some x =>
    rw [hpi] at h
    simp only [Option.some.injEq, Prod.mk.injEq] at h
    exact h.1 ▸ hp i x.1 x.2 (by rw [hpi])

theorem sound_verify {α : Type} {p : Parser α} (f : α → Bool) (hp : Sound p) :
    Sound (verify p f) := by
  intro i r a h
  unfold verify at h
  cases hpi : p i with
  | none => rw [hpi] at h; exact absurd h (by simp)
  | some x =>
    rw [hpi] at h
    by_cases hfa : f x.2
    · simp only [hfa, if_true, Option.some.injEq, Prod.mk.injEq] at h
      exact h.1 ▸ hp i x.1 x.2 (by rw [hpi])
    · simp [hfa] at h

theorem sound_recognize {α : Type} {p : Parser α} (hp : Sound p) :
    Sound (recognize p) := by
  intro i r a h
  unfold recognize at h
  cases hpi : p i with
  | none => rw [hpi] at h; exact absurd h (by simp)
  | some x =>
    rw [hpi] at h
    simp only [Option.some.injEq, Prod.mk.injEq] at h
    exact h.1 ▸ hp i x.1 x.2 (by rw [hpi])

theorem sound_tag (t : List Char) : Sound (tag t) := by
  intro i r a h
  unfold tag at h
  by_cases hpre : t.isPrefixOf i
  · simp only [hpre, if_true, Option.some.injEq, Prod.mk.injEq] at h
    exact h.1 ▸ List.drop_suffix _ _
  · simp [hpre] at h

theorem sound_chr (c : Char) : Sound (chr c) := by
  intro i r a h
  unfold chr at h
  cases i with
  | nil => exact absurd h (by simp)
  | cons d rest =>
    by_cases hdc : d = c
    · simp only [hdc, if_true, Option.some.injEq, Prod.mk.injEq] at h
      exact h.1 ▸ List.suffix_cons _ _
    · simp [hdc] at h

theorem sound_takeWhile0 (f : Char → Bool) : Sound (takeWhile0 f) := by
  intro i r a h
  simp only [takeWhile0, Option.some.injEq, Prod.mk.injEq] at h
  exact h.1 ▸ List.dropWhile_suffix f

theorem sound_takeWhile1 (f : Char → Bool) : Sound (takeWhile1 f) := by
  intro i r a h
  unfold takeWhile1 at h
  cases i with
  | nil => exact absurd h (by simp)
  | cons c rest =>
    by_cases hc : f c
    · simp only [hc, if_true, Option.some.injEq, Prod.mk.injEq] at h
      exact h.1 ▸ List.dropWhile_suffix f
    · simp [hc] at h

theorem sound_noneOf (bad : List Char) : Sound (noneOf bad) := by
  intro i r a h
  unfold noneOf at h
  cases i with
  | nil => exact absurd h (by simp)
  | cons c rest =>
    dsimp only at h
    by_cases hc : bad.contains c = true
    · rw [if_pos hc] at h
      exact absurd h (by simp)
    · rw [if_neg hc] at h
      simp only [Option.some.injEq, Prod.mk.injEq] at h
      exact h.1 ▸ List.suffix_cons _ _

theorem signSplit_suffix (i : Input) : (signSplit i).2 <:+ i := by
  unfold signSplit
  cases i with
  | nil => exact List.suffix_refl _
  | cons c r =>
    by_cases h1 : c = '+'
    · simp only [h1, if_true]
      exact List.suffix_cons _ _
    · by_cases h2 : c = '-'
      · simp only [h1, h2, if_false, if_true]
        exact List.suffix_cons _ _
      · simp only [h1, h2, if_false]
        exact List.suffix_refl _

theorem sound_i64P : Sound i64P := by
  intro i r a h
  unfold i64P at h
  cases hd : digit1 (signSplit i).2 with
  | none => rw [hd] at h; exact absurd h (by simp)
  | some x =>
    obtain ⟨r1, ds⟩ := x
    rw [hd] at h
    dsimp only at h
    by_cases hv : -9223372036854775808 ≤ (signSplit i).1 * (digitsToNat ds : Int) ∧
        (signSplit i).1 * (digitsToNat ds : Int) ≤ 9223372036854775807
    · rw [if_pos hv] at h
      simp only [Option.some.injEq, Prod.mk.injEq] at h
      exact h.1 ▸ (sound_takeWhile1 _ _ r1 ds hd).trans (signSplit_suffix i)
    · rw [if_neg hv] at h
      exact absurd h (by simp)

theorem sound_many0Go {α : Type} {p : Parser α} (hp : Sound p) :
    ∀ fuel i r as, many0Go p fuel i = some (r, as) → r <:+ i := by
  intro fuel
  induction fuel with
  | zero => intro i r as h; exact absurd h (by simp [many0Go])
  | succ fuel ih =>
    intro i r as h
    unfold many0Go at h
    cases hpi : p i with
    | none =>
      rw [hpi] at h
      simp only [Option.some.injEq, Prod.mk.injEq] at h
      rw [← h.1]
    | some x =>
      rw [hpi] at h
      by_cases hlt : x.1.length < i.length
      · simp only [hlt, if_true] at h
        cases hgo : many0Go p fuel x.1 with
        | none => rw [hgo] at h; exact absurd h (by simp)
        | some y =>
          rw [hgo] at h
          simp only [Option.some.injEq, Prod.mk.injEq] at h
          exact h.1 ▸ (ih x.1 y.1 y.2 (by rw [hgo])).trans (hp i x.1 x.2 (by rw [hpi]))
      · simp [hlt] at h

theorem sound_many0 {α : Type} {p : Parser α} (hp : Sound p) : Sound (many0 p) := by
  intro i r as h
  exact sound_many0Go hp _ i r as h

theorem sound_many1 {α : Type} {p : Parser α} (hp : Sound p) : Sound (many1 p) := by
  intro i r as h
  unfold many1 at h
  cases hpi : p i with
  | none => rw [hpi] at h; exact absurd h (by simp)
  | some x =>
    obtain ⟨r1, a1⟩ := x
    rw [hpi] at h
    dsimp only at h
    cases hm : many0 p r1 with
    | none => rw [hm] at h; exact absurd h (by simp)
    | some y =>
      rw [hm] at h
      simp only [Option.some.injEq, Prod.mk.injEq] at h
      exact h.1 ▸ (sound_many0 hp r1 y.1 y.2 (by rw [hm])).trans (hp i r1 a1 hpi)

theorem sound_terminated {α β : Type} {p : Parser α} {q : Parser β}
    (hp : Sound p) (hq : Sound q) : Sound (terminated p q) :=
  sound_pbind hp (fun _ => sound_pmap _ hq)

theorem sound_preceded {α β : Type} {p : Parser α} {q : Parser β}
    (hp : Sound p) (hq : Sound q) : Sound (preceded p q) :=
  sound_pbind hp (fun _ => hq)

theorem sound_delimitedP {α β γ : Type} {p : Parser α} {q : Parser β} {r : Parser γ}
    (hp : Sound p) (hq : Sound q) (hr : Sound r) : Sound (delimitedP p q r) :=
  sound_preceded hp (sound_terminated hq hr)

theorem sound_pairP {α β : Type} {p : Parser α} {q : Parser β}
    (hp : Sound p) (hq : Sound q) : Sound (pairP p q) :=
  sound_pbind hp (fun _ => sound_pmap _ hq)

theorem sound_sepPair {α β γ : Type} {p : Parser α} {sep : Parser β} {q : Parser γ}
    (hp : Sound p) (hs : Sound sep) (hq : Sound q) : Sound (sepPair p sep q) :=
  sound_pbind hp (fun _ => sound_preceded hs (sound_pmap _ hq))

theorem sound_pvalue {α β : Type} {p : Parser α} (b : β) (hp : Sound p) :
    Sound (pvalue b p) :=
  sound_pmap _ hp

theorem sound_multispace0 : Sound multispace0 := sound_takeWhile0 _

theorem sound_space0 : Sound space0 := sound_takeWhile0 _

theorem sound_newlineP : Sound newlineP := sound_chr _

theorem sound_ws {α : Type} {p : Parser α} (hp : Sound p) : Sound (ws p) :=
  sound_terminated hp sound_multispace0

theorem sound_prim : Sound prim :=
  sound_alt_cons
    (sound_pmap _ (sound_alt_cons (sound_pvalue _ (sound_tag _))
      (sound_alt_cons (sound_pvalue _ (sound_tag _)) sound_alt_nil)))
    (sound_alt_cons (sound_pmap _ sound_i64P) sound_alt_nil)

theorem sound_stringP : Sound stringP :=
  sound_pmap _ (sound_delimitedP (sound_chr _) (sound_many0 (sound_noneOf _)) (sound_chr _))

theorem sound_identRaw : Sound identRaw :=
  sound_recognize
    (sound_pairP
      (sound_alt_cons (sound_takeWhile1 _) (sound_alt_cons (sound_tag _) sound_alt_nil))
      (sound_many0
        (sound_alt_cons (sound_takeWhile1 _) (sound_alt_cons (sound_tag _) sound_alt_nil))))

theorem sound_name : Sound name := sound_verify _ sound_identRaw

theorem sound_name_typed : Sound name_typed :=
  sound_delimitedP (sound_opt (sound_ws (sound_chr _)))
    (sound_sepPair (sound_ws sound_name) (sound_ws (sound_chr _)) sound_name)
    (sound_opt (sound_ws (sound_chr _)))

theorem sound_kind : Sound kind :=
  sound_preceded (sound_ws (sound_chr _))
    (sound_pbind
      (sound_many0 (sound_terminated (sound_ws sound_name_typed) (sound_ws (sound_tag _))))
      (fun _ => sound_pmap _ (sound_ws sound_name)))

theorem sound_keyword : Sound keyword :=
  sound_alt_cons (sound_pvalue _ (sound_tag _))
    (sound_alt_cons (sound_pvalue _ (sound_tag _)) sound_alt_nil)

theorem sound_binderP : Sound binderP :=
  sound_alt_cons (sound_ws (sound_tag _))
    (sound_alt_cons (sound_ws (sound_tag _)) sound_alt_nil)

theorem soundMutual : ∀ n : Nat,
    Sound (exprF n) ∧ Sound (callF n) ∧ Sound (binderExprNl n) ∧
    Sound (bindF n) ∧ Sound (assignF n) ∧ Sound (branchHead n) ∧
    Sound (branchMiddle n) ∧ Sound (branchElse n) ∧ Sound (branchF n) ∧
    Sound (loopF n) ∧ Sound (instrAlt1 n) ∧ Sound (instrAlt2 n) ∧
    Sound (instrAlt3 n) ∧ Sound (instrAlt4 n) ∧ Sound (instrAlt5 n) ∧
    Sound (instrAlt6 n) ∧ Sound (instrF n) := by
  intro n
  induction n with
  | zero =>
    refine ⟨?_, ?_, ?_, ?_, ?_, ?_, ?_, ?_, ?_, ?_, ?_, ?_, ?_, ?_, ?_, ?_, ?_⟩ <;>
      exact sound_pfail
  | succ n ih =>
    obtain ⟨he, hc, hbe, hb, ha, hbh, hbm, hbel, hbr, hl, h1, h2, h3, h4, h5, h6, hi⟩ := ih
    refine ⟨?_, ?_, ?_, ?_, ?_, ?_, ?_, ?_, ?_, ?_, ?_, ?_, ?_, ?_, ?_, ?_, ?_⟩
    · exact sound_terminated
        (sound_alt_cons
          (sound_delimitedP (sound_ws (sound_chr _))
            (sound_alt_cons (sound_ws sound_prim)
              (sound_alt_cons (sound_pmap _ (sound_ws sound_name))
                (sound_alt_cons (sound_ws hc)
                  (sound_alt_cons (sound_ws sound_stringP) sound_alt_nil))))
            (sound_chr _))
          (sound_alt_cons
            (sound_alt_cons sound_prim
              (sound_alt_cons (sound_pmap _ sound_name)
                (sound_alt_cons hc (sound_alt_cons sound_stringP sound_alt_nil))))
            sound_alt_nil))
        sound_space0
    · exact sound_pbind (sound_chr _) (fun _ =>
        sound_pbind sound_name (fun _ =>
          sound_pbind sound_space0 (fun _ =>
            sound_pmap _ (sound_many0 (sound_terminated he sound_space0)))))
    · exact sound_pbind sound_binderP (fun _ =>
        sound_pbind he (fun _ => sound_pvalue _ sound_newlineP))
    · exact sound_pbind (sound_ws (sound_tag _)) (fun _ =>
        sound_pbind (sound_opt (sound_ws (sound_tag _))) (fun _ =>
          sound_pbind (sound_ws sound_name_typed) (fun _ => sound_pmap _ hbe)))
    · exact sound_pbind (sound_ws sound_name) (fun _ => sound_pmap _ hbe)
    · exact sound_pairP (sound_preceded (sound_ws (sound_tag _)) (sound_ws he))
        (sound_preceded (sound_ws (sound_tag _)) (sound_many1 (sound_ws hi)))
    · exact sound_many0
        (sound_pairP (sound_preceded (sound_ws (sound_tag _)) (sound_ws he))
          (sound_preceded (sound_ws (sound_tag _)) (sound_many1 (sound_ws hi))))
    · exact sound_opt (sound_preceded (sound_ws (sound_tag _)) (sound_many1 (sound_ws hi)))
    · exact sound_pbind hbh (fun _ =>
        sound_pbind hbm (fun _ =>
          sound_pbind hbel (fun _ => sound_pvalue _ (sound_ws (sound_tag _)))))
    · exact sound_pbind (sound_ws (sound_tag _)) (fun _ =>
        sound_pbind (sound_many1 (sound_ws hi)) (fun _ =>
          sound_pvalue _ (sound_ws (sound_tag _))))
    · exact sound_terminated (sound_pmap _ he) sound_newlineP
    · exact sound_ws ha
    · exact sound_ws hb
    · exact sound_pmap _ (sound_ws hbr)
    · exact sound_pmap _ (sound_ws hl)
    · exact sound_terminated (sound_pmap _ sound_keyword) sound_newlineP
    · exact sound_alt_cons h1 (sound_alt_cons h2 (sound_alt_cons h3
        (sound_alt_cons h4 (sound_alt_cons h5 (sound_alt_cons h6 sound_alt_nil)))))

theorem sound_exprF (n : Nat) : Sound (exprF n) := (soundMutual n).1

theorem sound_instrF (n : Nat) : Sound (instrF n) :=
  (soundMutual n).2.2.2.2.2.2.2.2.2.2.2.2.2.2.2.2

theorem sound_binderBody (n : Nat) : Sound (binderBody n) :=
  sound_pbind sound_binderP (fun _ =>
    sound_pbind (sound_many1 (sound_ws (sound_instrF n))) (fun _ =>
      sound_pvalue _ (sound_ws (sound_tag _))))

theorem sound_func (n : Nat) : Sound (func n) :=
  sound_pbind (sound_ws (sound_tag _)) (fun _ =>
    sound_pbind (sound_ws sound_name) (fun _ =>
      sound_pbind (sound_ws sound_kind) (fun _ => sound_pmap _ (sound_binderBody n))))

theorem sound_ast (n : Nat) : Sound (ast n) :=
  sound_pmap _ (sound_many1 (sound_func n))

/-! ## Inversion and unfolding lemmas for the combinators -/

theorem pbind_eq_some {α β : Type} {p : Parser α} {f : α → Parser β}
    {i r : Input} {b : β} :
    pbind p f i = some (r, b) ↔ ∃ m a, p i = some (m, a) ∧ f a m = some (r, b) := by
  constructor
  · intro h
    unfold pbind at h
    cases hpi : p i with
    | none => rw [hpi] at h; exact absurd h (by simp)
    | some x =>
      obtain ⟨m, a⟩ := x
      rw [hpi] at h
      exact ⟨m, a, rfl, h⟩
  · rintro ⟨m, a, hpi, hf⟩
    unfold pbind
    rw [hpi]
    exact hf

theorem pmap_eq_some {α β : Type} {f : α → β} {p : Parser α} {i r : Input} {b : β} :
    pmap f p i = some (r, b) ↔ ∃ a, p i = some (r, a) ∧ b = f a := by
  constructor
  · intro h
    unfold pmap at h
    cases hpi : p i with
    | none => rw [hpi] at h; exact absurd h (by simp)
    | some x =>
      obtain ⟨m, a⟩ := x
      rw [hpi] at h
      simp only [Option.some.injEq, Prod.mk.injEq] at h
      obtain ⟨h1, h2⟩ := h
      subst h1
      exact ⟨a, rfl, h2.symm⟩
  · rintro ⟨a, hpi, hb⟩
    unfold pmap
    rw [hpi, hb]

theorem pairP_eq_some {α β : Type} {p : Parser α} {q : Parser β}
    {i r : Input} {a : α} {b : β} :
    pairP p q i = some (r, (a, b)) ↔
      ∃ m, p i = some (m, a) ∧ q m = some (r, b) := by
  constructor
  · intro h
    rw [pairP, pbind_eq_some] at h
    obtain ⟨m, a1, hp, hq⟩ := h
    rw [pmap_eq_some] at hq
    obtain ⟨b1, hq1, hab⟩ := hq
    obtain ⟨ha, hb⟩ : a1 = a ∧ b1 = b := by
      constructor <;> simp_all
    exact ⟨m, by rw [hp, ha], by rw [hq1, hb]⟩
  · rintro ⟨m, hp, hq⟩
    rw [pairP, pbind_eq_some]
    exact ⟨m, a, hp, by rw [pmap_eq_some]; exact ⟨b, hq, rfl⟩⟩

theorem verify_eq_some {α : Type} {p : Parser α} {f : α → Bool}
    {i r : Input} {a : α} :
    verify p f i = some (r, a) ↔ p i = some (r, a) ∧ f a = true := by
  constructor
  · intro h
    unfold verify at h
    cases hpi : p i with
    | none => rw [hpi] at h; exact absurd h (by simp)
    | some x =>
      obtain ⟨m, a1⟩ := x
      rw [hpi] at h
      dsimp only at h
      by_cases hfa : f a1 = true
      · rw [if_pos hfa] at h
        simp only [Option.some.injEq, Prod.mk.injEq] at h
        obtain ⟨h1, h2⟩ := h
        subst h1; subst h2
        exact ⟨rfl, hfa⟩
      · rw [if_neg hfa] at h
        exact absurd h (by simp)
  · rintro ⟨hpi, hfa⟩
    unfold verify
    rw [hpi]
    exact if_pos hfa

theorem recognize_eq_some {α : Type} {p : Parser α} {i r : Input} {x : List Char} :
    recognize p i = some (r, x) ↔
      (∃ a, p i = some (r, a)) ∧ x = i.take (i.length - r.length) := by
  constructor
  · intro h
    unfold recognize at h
    cases hpi : p i with
    | none => rw [hpi] at h; exact absurd h (by simp)
    | some y =>
      obtain ⟨r1, a1⟩ := y
      rw [hpi] at h
      dsimp only at h
      simp only [Option.some.injEq, Prod.mk.injEq] at h
      obtain ⟨h1, h2⟩ := h
      subst h1
      exact ⟨⟨a1, rfl⟩, h2.symm⟩
  · rintro ⟨⟨a, hpi⟩, hx⟩
    unfold recognize
    rw [hpi, hx]

theorem many0Go_irrel {α : Type} (p : Parser α) :
    ∀ f1 f2 i, i.length < f1 → i.length < f2 →
      many0Go p f1 i = many0Go p f2 i := by
  intro f1
  induction f1 with
  | zero => intro f2 i h1 _; omega
  | succ f1 ih =>
    intro f2 i h1 h2
    cases f2 with
    | zero => omega
    | succ f2 =>
      unfold many0Go
      cases hpi : p i with
      | none => rfl
      | some x =>
        dsimp only
        by_cases hlt : x.1.length < i.length
        · rw [ih f2 x.1 (by omega) (by omega)]
        · rw [if_neg hlt]
          rw [if_neg hlt]

/-- One-step unfolding of nom's `many0` loop. -/
theorem many0_unfold {α : Type} (p : Parser α) (i : Input) :
    many0 p i =
      match p i with
      | none => some (i, [])
      | some (r, a) =>
        if r.length < i.length then
          match many0 p r with
          | none => none
          | some (r2, as) => some (r2, a :: as)
        else none := by
  cases hpi : p i with
  | none =>
    dsimp only
    unfold many0 many0Go
    rw [hpi]
  | some x =>
    obtain ⟨r1, a1⟩ := x
    dsimp only
    show many0Go p (i.length + 1) i = _
    rw [many0Go]
    rw [hpi]
    dsimp only
    by_cases hlt : r1.length < i.length
    · rw [if_pos hlt]
      rw [if_pos hlt]
      rw [many0Go_irrel p i.length (r1.length + 1) r1 hlt (Nat.lt_succ_self _)]
      rfl
    · rw [if_neg hlt]
      rw [if_neg hlt]

theorem alt_cons_of_none {α : Type} {p : Parser α} {ps : List (Parser α)} {i : Input}
    (h : p i = none) : alt (p :: ps) i = alt ps i := by
  show (match p i with | none => alt ps i | some x => some x) = alt ps i
  rw [h]

theorem alt_cons_of_some {α : Type} {p : Parser α} {ps : List (Parser α)}
    {i r : Input} {a : α} (h : p i = some (r, a)) : alt (p :: ps) i = some (r, a) := by
  show (match p i with | none => alt ps i | some x => some x) = some (r, a)
  rw [h]

theorem takeWhile1_eq_some {f : Char → Bool} {i r x : Input} :
    takeWhile1 f i = some (r, x) ↔
      ∃ c t, i = c :: t ∧ f c = true ∧ r = i.dropWhile f ∧ x = i.takeWhile f := by
  constructor
  · intro h
    cases i with
    | nil => exact absurd h (by simp [takeWhile1])
    | cons c t =>
      unfold takeWhile1 at h
      dsimp only at h
      by_cases hc : f c = true
      · rw [if_pos hc] at h
        simp only [Option.some.injEq, Prod.mk.injEq] at h
        exact ⟨c, t, rfl, hc, h.1.symm, h.2.symm⟩
      · rw [if_neg hc] at h
        exact absurd h (by simp)
  · rintro ⟨c, t, rfl, hc, rfl, rfl⟩
    unfold takeWhile1
    dsimp only
    rw [if_pos hc]

theorem tag_eq_some {t i r x : Input} :
    tag t i = some (r, x) ↔ t.isPrefixOf i = true ∧ r = i.drop t.length ∧ x = t := by
  unfold tag
  by_cases hp : t.isPrefixOf i = true
  · simp only [if_pos hp, Option.some.injEq, Prod.mk.injEq]
    constructor
    · rintro ⟨h1, h2⟩
      exact ⟨hp, h1.symm, h2.symm⟩
    · rintro ⟨_, h1, h2⟩
      exact ⟨h1.symm, h2.symm⟩
  · simp only [if_neg hp]
    simp [hp]

theorem many0_step_none {α : Type} {p : Parser α} {i : Input} (h : p i = none) :
    many0 p i = some (i, []) := by
  rw [many0_unfold, h]

theorem many0_cons {α : Type} {p : Parser α} {i r1 r2 : Input} {a : α} {as : List α}
    (h : p i = some (r1, a)) (hlt : r1.length < i.length)
    (hrec : many0 p r1 = some (r2, as)) : many0 p i = some (r2, a :: as) := by
  rw [many0_unfold, h]
  dsimp only
  rw [if_pos hlt, hrec]

theorem many0_eq_some_inv {α : Type} {p : Parser α} {i r : Input} {as : List α}
    (h : many0 p i = some (r, as)) :
    (p i = none ∧ r = i ∧ as = []) ∨
      ∃ r1 a as2, p i = some (r1, a) ∧ r1.length < i.length ∧
        many0 p r1 = some (r, as2) ∧ as = a :: as2 := by
  rw [many0_unfold] at h
  cases hpi : p i with
  | none =>
    rw [hpi] at h
    simp only [Option.some.injEq, Prod.mk.injEq] at h
    exact Or.inl ⟨rfl, h.1.symm, h.2.symm⟩
  | some x =>
    obtain ⟨r1, a⟩ := x
    rw [hpi] at h
    dsimp only at h
    by_cases hlt : r1.length < i.length
    · rw [if_pos hlt] at h
      cases hrec : many0 p r1 with
      | none => rw [hrec] at h; exact absurd h (by simp)
      | some y =>
        obtain ⟨r2, as2⟩ := y
        rw [hrec] at h
        simp only [Option.some.injEq, Prod.mk.injEq] at h
        obtain ⟨h1, h2⟩ := h
        subst h1
        exact Or.inr ⟨r1, a, as2, rfl, hlt, hrec, h2.symm⟩
    · rw [if_neg hlt] at h
      exact absurd h (by simp)

/-! ## Identifier characterization (`fn name`) -/

/-- A character that can start an identifier: alphabetic or underscore. -/
def isIdentStart (c : Char) : Bool := c.isAlpha || c == '_'

/-- A character that can continue an identifier: alphanumeric or underscore. -/
def isIdentChar (c : Char) : Bool := c.isAlphanum || c == '_'

/-- The spelling shape matched by the identifier rule (before the
reserved-word filter). -/
def isIdentName : Input → Bool
  | [] => false
  | c :: cs => isIdentStart c && cs.all isIdentChar

/-- `rest` cannot extend an identifier to its left: it is empty or starts
with a non-identifier character. -/
def stopsIdent (rest : Input) : Prop :=
  ∀ d, rest.head? = some d → isIdentChar d = false

theorem not_identChar_alnum {d : Char} (h : isIdentChar d = false) :
    d.isAlphanum = false := by
  unfold isIdentChar at h
  exact (Bool.or_eq_false_iff.mp h).1

theorem not_identChar_alpha {d : Char} (h : isIdentChar d = false) :
    d.isAlpha = false := by
  have h2 := not_identChar_alnum h
  unfold Char.isAlphanum at h2
  exact (Bool.or_eq_false_iff.mp h2).1

theorem not_identChar_underscore {d : Char} (h : isIdentChar d = false) :
    d ≠ '_' := by
  unfold isIdentChar at h
  exact beq_eq_false_iff_ne.mp (Bool.or_eq_false_iff.mp h).2

theorem identChar_of_alnum {c : Char} (h : c.isAlphanum = true) :
    isIdentChar c = true := by
  unfold isIdentChar
  rw [h]
  rfl

theorem identChar_of_alpha {c : Char} (h : c.isAlpha = true) :
    isIdentChar c = true := by
  apply identChar_of_alnum
  unfold Char.isAlphanum
  rw [h]
  rfl

theorem identStart_of_alpha {c : Char} (h : c.isAlpha = true) :
    isIdentStart c = true := by
  unfold isIdentStart
  rw [h]
  rfl

theorem underscore_of_identChar_not_alnum {c : Char}
    (hc : isIdentChar c = true) (hA : ¬c.isAlphanum = true) : c = '_' := by
  unfold isIdentChar at hc
  rcases Bool.or_eq_true_iff.mp hc with h | h
  · exact absurd h hA
  · exact eq_of_beq h

theorem underscore_of_identStart_not_alpha {c : Char}
    (hc : isIdentStart c = true) (hA : ¬c.isAlpha = true) : c = '_' := by
  unfold isIdentStart at hc
  rcases Bool.or_eq_true_iff.mp hc with h | h
  · exact absurd h hA
  · exact eq_of_beq h

/-- `takeWhile`/`dropWhile` over an append whose right part starts with a
character failing the predicate. -/
theorem takeDropWhile_append_stop (f : Char → Bool) :
    ∀ (v rest : Input), (∀ d, rest.head? = some d → f d = false) →
      (v ++ rest).takeWhile f = v.takeWhile f ∧
        (v ++ rest).dropWhile f = v.dropWhile f ++ rest := by
  intro v
  induction v with
  | nil =>
    intro rest h
    cases rest with
    | nil => simp
    | cons d ds =>
      have hd : ¬f d = true := by simp [h d rfl]
      simp only [List.nil_append, List.takeWhile_nil, List.dropWhile_nil]
      exact ⟨List.takeWhile_cons_of_neg hd, List.dropWhile_cons_of_neg hd⟩
  | cons c v ih =>
    intro rest h
    by_cases hc : f c = true
    · simp only [List.cons_append, List.takeWhile_cons_of_pos hc,
        List.dropWhile_cons_of_pos hc]
      exact ⟨by rw [(ih rest h).1], (ih rest h).2⟩
    · simp only [List.cons_append, List.takeWhile_cons_of_neg hc,
        List.dropWhile_cons_of_neg hc]
      exact ⟨trivial, trivial⟩

theorem identStepP_none_of_stops {rest : Input} (h : stopsIdent rest) :
    identStepP rest = none := by
  cases rest with
  | nil => rfl
  | cons d ds =>
    have hd := h d rfl
    have h1 : ¬d.isAlphanum = true := by simp [not_identChar_alnum hd]
    have ha : alphanumeric1 (d :: ds) = none := by
      unfold alphanumeric1 takeWhile1
      dsimp only
      rw [if_neg h1]
    have hbeq : ('_' == d) = false :=
      beq_eq_false_iff_ne.mpr (Ne.symm (not_identChar_underscore hd))
    have hb : tag (s "_") (d :: ds) = none := by
      unfold tag
      rw [if_neg (by show ¬List.isPrefixOf ['_'] (d :: ds) = true; simp [List.isPrefixOf, hbeq])]
    rw [identStepP, alt_cons_of_none ha, alt_cons_of_none hb]
    rfl

theorem identStepP_alnum {c : Char} {t : Input} (hA : c.isAlphanum = true) :
    identStepP (c :: t) =
      some ((c :: t).dropWhile Char.isAlphanum, (c :: t).takeWhile Char.isAlphanum) := by
  have ha : alphanumeric1 (c :: t) =
      some ((c :: t).dropWhile Char.isAlphanum, (c :: t).takeWhile Char.isAlphanum) := by
    unfold alphanumeric1 takeWhile1
    dsimp only
    rw [if_pos hA]
  rw [identStepP, alt_cons_of_some ha]

theorem identStepP_underscore (t : Input) :
    identStepP ('_' :: t) = some (t, ['_']) := by
  have ha : alphanumeric1 ('_' :: t) = none := by
    unfold alphanumeric1 takeWhile1
    dsimp only
    rw [if_neg (by decide)]
  have hb : tag (s "_") ('_' :: t) = some (t, ['_']) := by
    unfold tag
    rw [if_pos (by show List.isPrefixOf ['_'] ('_' :: t) = true; simp [List.isPrefixOf])]
    rfl
  rw [identStepP, alt_cons_of_none ha, alt_cons_of_some hb]

theorem identHeadP_alpha {c : Char} {t : Input} (hA : c.isAlpha = true) :
    identHeadP (c :: t) =
      some ((c :: t).dropWhile Char.isAlpha, (c :: t).takeWhile Char.isAlpha) := by
  have ha : alpha1 (c :: t) =
      some ((c :: t).dropWhile Char.isAlpha, (c :: t).takeWhile Char.isAlpha) := by
    unfold alpha1 takeWhile1
    dsimp only
    rw [if_pos hA]
  rw [identHeadP, alt_cons_of_some ha]

theorem identHeadP_underscore (t : Input) :
    identHeadP ('_' :: t) = some (t, ['_']) := by
  have ha : alpha1 ('_' :: t) = none := by
    unfold alpha1 takeWhile1
    dsimp only
    rw [if_neg (by decide)]
  have hb : tag (s "_") ('_' :: t) = some (t, ['_']) := by
    unfold tag
    rw [if_pos (by show List.isPrefixOf ['_'] ('_' :: t) = true; simp [List.isPrefixOf])]
    rfl
  rw [identHeadP, alt_cons_of_none ha, alt_cons_of_some hb]

theorem identTailP_complete_aux :
    ∀ (k : Nat) (v rest : Input), v.length ≤ k →
      (∀ d ∈ v, isIdentChar d = true) → stopsIdent rest →
      ∃ ts, identTailP (v ++ rest) = some (rest, ts) := by
  intro k
  induction k with
  | zero =>
    intro v rest hlen _ hrest
    have hv0 : v = [] := List.eq_nil_of_length_eq_zero (Nat.le_zero.mp hlen)
    subst hv0
    rw [List.nil_append]
    exact ⟨[], by rw [identTailP]; exact many0_step_none (identStepP_none_of_stops hrest)⟩
  | succ k ih =>
    intro v rest hlen hv hrest
    cases v with
    | nil =>
      rw [List.nil_append]
      exact ⟨[], by rw [identTailP]; exact many0_step_none (identStepP_none_of_stops hrest)⟩
    | cons c v2 =>
      have hc : isIdentChar c = true := hv c (List.mem_cons_self c v2)
      by_cases hA : c.isAlphanum = true
      · have hstopA : ∀ d, rest.head? = some d → Char.isAlphanum d = false :=
          fun d hd => not_identChar_alnum (hrest d hd)
        have hsplit := takeDropWhile_append_stop Char.isAlphanum (c :: v2) rest hstopA
        have hstep : identStepP ((c :: v2) ++ rest) =
            some ((c :: v2).dropWhile Char.isAlphanum ++ rest,
              ((c :: v2) ++ rest).takeWhile Char.isAlphanum) := by
          rw [List.cons_append, identStepP_alnum hA, ← List.cons_append, hsplit.2]
        have hlt : ((c :: v2).dropWhile Char.isAlphanum ++ rest).length <
            ((c :: v2) ++ rest).length := by
          have h1 : (c :: v2).dropWhile Char.isAlphanum = v2.dropWhile Char.isAlphanum :=
            List.dropWhile_cons_of_pos hA
          have h2 : (v2.dropWhile Char.isAlphanum).length ≤ v2.length :=
            (List.dropWhile_sublist Char.isAlphanum).length_le
          simp only [List.length_append, h1, List.length_cons]
          omega
        have hmem : ∀ d ∈ (c :: v2).dropWhile Char.isAlphanum, isIdentChar d = true :=
          fun d hd => hv d ((List.dropWhile_sublist Char.isAlphanum).subset hd)
        have hlen2 : ((c :: v2).dropWhile Char.isAlphanum).length ≤ k := by
          have h1 : (c :: v2).dropWhile Char.isAlphanum = v2.dropWhile Char.isAlphanum :=
            List.dropWhile_cons_of_pos hA
          have h2 : (v2.dropWhile Char.isAlphanum).length ≤ v2.length :=
            (List.dropWhile_sublist Char.isAlphanum).length_le
          simp only [List.length_cons] at hlen
          rw [h1]
          omega
        obtain ⟨ts, hts⟩ := ih _ rest hlen2 hmem hrest
        exact ⟨_, by rw [identTailP] at hts ⊢; exact many0_cons hstep hlt hts⟩
      · have hund : c = '_' := underscore_of_identChar_not_alnum hc hA
        subst hund
        have hstep : identStepP (('_' :: v2) ++ rest) = some (v2 ++ rest, ['_']) := by
          rw [List.cons_append, identStepP_underscore]
        have hlt : (v2 ++ rest).length < (('_' :: v2) ++ rest).length := by
          simp [List.length_append]
        obtain ⟨ts, hts⟩ := ih v2 rest (by simp only [List.length_cons] at hlen; omega)
          (fun d hd => hv d (List.mem_cons_of_mem _ hd)) hrest
        exact ⟨_, by rw [identTailP] at hts ⊢; exact many0_cons hstep hlt hts⟩

theorem identTailP_complete (v rest : Input)
    (hv : ∀ d ∈ v, isIdentChar d = true) (hrest : stopsIdent rest) :
    ∃ ts, identTailP (v ++ rest) = some (rest, ts) :=
  identTailP_complete_aux v.length v rest (Nat.le_refl _) hv hrest

theorem identRaw_complete (w rest : Input) (hw : isIdentName w = true)
    (hrest : stopsIdent rest) : identRaw (w ++ rest) = some (rest, w) := by
  cases w with
  | nil => exact absurd hw (by simp [isIdentName])
  | cons c cs =>
    unfold isIdentName at hw
    obtain ⟨hstart, hall⟩ := Bool.and_eq_true_iff.mp hw
    have hall2 : ∀ d ∈ cs, isIdentChar d = true := fun d hd => List.all_eq_true.mp hall d hd
    have harith : ((c :: cs) ++ rest).length - rest.length = (c :: cs).length := by
      rw [List.length_append]
      omega
    by_cases hA : c.isAlpha = true
    · have hstopA : ∀ d, rest.head? = some d → Char.isAlpha d = false :=
        fun d hd => not_identChar_alpha (hrest d hd)
      have hsplit := takeDropWhile_append_stop Char.isAlpha (c :: cs) rest hstopA
      have hhead : identHeadP ((c :: cs) ++ rest) =
          some ((c :: cs).dropWhile Char.isAlpha ++ rest,
            ((c :: cs) ++ rest).takeWhile Char.isAlpha) := by
        rw [List.cons_append, identHeadP_alpha hA, ← List.cons_append, hsplit.2]
      have hmem : ∀ d ∈ (c :: cs).dropWhile Char.isAlpha, isIdentChar d = true := by
        intro d hd
        rcases List.mem_cons.mp ((List.dropWhile_sublist Char.isAlpha).subset hd) with h | h
        · subst h
          exact identChar_of_alpha hA
        · exact hall2 d h
      obtain ⟨ts, htail⟩ := identTailP_complete _ rest hmem hrest
      have hpair : pairP identHeadP identTailP ((c :: cs) ++ rest) =
          some (rest, (((c :: cs) ++ rest).takeWhile Char.isAlpha, ts)) :=
        pairP_eq_some.mpr ⟨_, hhead, htail⟩
      rw [identRaw, recognize_eq_some]
      exact ⟨⟨_, hpair⟩, by rw [harith, List.take_left]⟩
    · have hund : c = '_' := underscore_of_identStart_not_alpha hstart hA
      subst hund
      have hhead : identHeadP (('_' :: cs) ++ rest) = some (cs ++ rest, ['_']) := by
        rw [List.cons_append, identHeadP_underscore]
      obtain ⟨ts, htail⟩ := identTailP_complete cs rest hall2 hrest
      have hpair : pairP identHeadP identTailP (('_' :: cs) ++ rest) =
          some (rest, (['_'], ts)) :=
        pairP_eq_some.mpr ⟨_, hhead, htail⟩
      rw [identRaw, recognize_eq_some]
      exact ⟨⟨_, hpair⟩, by rw [harith, List.take_left]⟩

/-- The identifier rule consumes exactly an identifier-shaped,
non-reserved word when the following input cannot extend it. -/
theorem name_complete (w rest : Input) (hw : isIdentName w = true)
    (hkw : nameKeywords.contains w = false) (hrest : stopsIdent rest) :
    name (w ++ rest) = some (rest, w) := by
  rw [name, verify_eq_some]
  exact ⟨identRaw_complete w rest hw hrest, by rw [hkw]; rfl⟩

theorem identStepP_chars {i r : Input} {x : List Char}
    (h : identStepP i = some (r, x)) :
    ∃ pre, pre ≠ [] ∧ i = pre ++ r ∧ ∀ d ∈ pre, isIdentChar d = true := by
  rw [identStepP] at h
  cases hA : alphanumeric1 i with
  | some y =>
    obtain ⟨r1, x1⟩ := y
    rw [alt_cons_of_some hA] at h
    simp only [Option.some.injEq, Prod.mk.injEq] at h
    obtain ⟨hr1, _⟩ := h
    subst hr1
    rw [alphanumeric1] at hA
    obtain ⟨c, t, hi, hc, hr, _⟩ := takeWhile1_eq_some.mp hA
    subst hi
    refine ⟨(c :: t).takeWhile Char.isAlphanum, ?_, ?_, ?_⟩
    · rw [List.takeWhile_cons_of_pos hc]
      simp
    · rw [hr, List.takeWhile_append_dropWhile]
    · intro d hd
      exact identChar_of_alnum (List.mem_takeWhile_imp hd)
  | none =>
    rw [alt_cons_of_none hA] at h
    cases htag : tag (s "_") i with
    | none =>
      rw [alt_cons_of_none htag] at h
      exact absurd h (by simp [alt, pfail])
    | some y =>
      obtain ⟨r1, x1⟩ := y
      rw [alt_cons_of_some htag] at h
      simp only [Option.some.injEq, Prod.mk.injEq] at h
      obtain ⟨hr1, _⟩ := h
      subst hr1
      obtain ⟨hpre, hr, _⟩ := tag_eq_some.mp htag
      obtain ⟨t2, ht2⟩ := List.isPrefixOf_iff_prefix.mp hpre
      refine ⟨['_'], by simp, ?_, ?_⟩
      · rw [hr, ← ht2]
        rfl
      · intro d hd
        simp only [List.mem_singleton] at hd
        subst hd
        decide
  
theorem identTailP_chars_aux :
    ∀ (k : Nat) (i r : Input) (ts : List (List Char)), i.length ≤ k →
      identTailP i = some (r, ts) →
      ∃ pre, i = pre ++ r ∧ ∀ d ∈ pre, isIdentChar d = true := by
  intro k
  induction k with
  | zero =>
    intro i r ts _ h
    rw [identTailP] at h
    rcases many0_eq_some_inv h with ⟨_, hr, _⟩ | ⟨r1, a, as2, _, hlt, _, _⟩
    · exact ⟨[], by rw [hr, List.nil_append], by intro d hd; simp at hd⟩
    · omega
  | succ k ih =>
    intro i r ts hlen h
    rw [identTailP] at h
    rcases many0_eq_some_inv h with ⟨_, hr, _⟩ | ⟨r1, a, as2, hstep, hlt, hrec, _⟩
    · exact ⟨[], by rw [hr, List.nil_append], by intro d hd; simp at hd⟩
    · obtain ⟨pre1, _, hi, hchars1⟩ := identStepP_chars hstep
      obtain ⟨pre2, hr1, hchars2⟩ := ih r1 r as2 (by omega)
        (by rw [identTailP]; exact hrec)
      refine ⟨pre1 ++ pre2, by rw [hi, hr1, List.append_assoc], ?_⟩
      intro d hd
      rcases List.mem_append.mp hd with hmem | hmem
      · exact hchars1 d hmem
      · exact hchars2 d hmem

theorem identTailP_chars {i r : Input} {ts : List (List Char)}
    (h : identTailP i = some (r, ts)) :
    ∃ pre, i = pre ++ r ∧ ∀ d ∈ pre, isIdentChar d = true :=
  identTailP_chars_aux i.length i r ts (Nat.le_refl _) h

theorem identHeadP_chars {i r : Input} {x : List Char}
    (h : identHeadP i = some (r, x)) :
    ∃ c pre, i = (c :: pre) ++ r ∧ isIdentStart c = true ∧
      ∀ d ∈ pre, isIdentChar d = true := by
  rw [identHeadP] at h
  cases hA : alpha1 i with
  | some y =>
    obtain ⟨r1, x1⟩ := y
    rw [alt_cons_of_some hA] at h
    simp only [Option.some.injEq, Prod.mk.injEq] at h
    obtain ⟨hr1, _⟩ := h
    subst hr1
    rw [alpha1] at hA
    obtain ⟨c, t, hi, hc, hr, _⟩ := takeWhile1_eq_some.mp hA
    subst hi
    refine ⟨c, t.takeWhile Char.isAlpha, ?_, identStart_of_alpha hc, ?_⟩
    · rw [hr, List.dropWhile_cons_of_pos hc]
      rw [show (c :: t.takeWhile Char.isAlpha) ++ t.dropWhile Char.isAlpha =
          c :: (t.takeWhile Char.isAlpha ++ t.dropWhile Char.isAlpha) from rfl]
      rw [List.takeWhile_append_dropWhile]
    · intro d hd
      exact identChar_of_alpha (List.mem_takeWhile_imp hd)
  | none =>
    rw [alt_cons_of_none hA] at h
    cases htag : tag (s "_") i with
    | none =>
      rw [alt_cons_of_none htag] at h
      exact absurd h (by simp [alt, pfail])
    | some y =>
      obtain ⟨r1, x1⟩ := y
      rw [alt_cons_of_some htag] at h
      simp only [Option.some.injEq, Prod.mk.injEq] at h
      obtain ⟨hr1, _⟩ := h
      subst hr1
      obtain ⟨hpre, hr, _⟩ := tag_eq_some.mp htag
      obtain ⟨t2, ht2⟩ := List.isPrefixOf_iff_prefix.mp hpre
      refine ⟨'_', [], ?_, by decide, by intro d hd; simp at hd⟩
      rw [hr, ← ht2]
      rfl

/-- Exact characterization of the identifier rule on a whole input: it
accepts precisely the identifier-shaped words outside the reserved list. -/
theorem name_exact_iff (w : Input) :
    name w = some ([], w) ↔
      isIdentName w = true ∧ nameKeywords.contains w = false := by
  constructor
  · intro h
    rw [name, verify_eq_some] at h
    obtain ⟨hraw, hpred⟩ := h
    have hkw : nameKeywords.contains w = false := by
      revert hpred
      cases nameKeywords.contains w <;> simp
    refine ⟨?_, hkw⟩
    rw [identRaw, recognize_eq_some] at hraw
    obtain ⟨⟨⟨xh, xt⟩, hpair⟩, _⟩ := hraw
    obtain ⟨m, hhead, htail⟩ := pairP_eq_some.mp hpair
    obtain ⟨c, pre1, hi, hstart, hchars1⟩ := identHeadP_chars hhead
    obtain ⟨pre2, hm, hchars2⟩ := identTailP_chars htail
    rw [List.append_nil] at hm
    rw [← hm] at hchars2
    subst hi
    show isIdentName (c :: (pre1 ++ m)) = true
    simp only [isIdentName]
    rw [hstart, Bool.true_and, List.all_eq_true]
    intro d hd
    rcases List.mem_append.mp hd with hmem | hmem
    · exact hchars1 d hmem
    · exact hchars2 d hmem
  · rintro ⟨hw, hkw⟩
    have h := name_complete w [] hw hkw (fun d hd => by simp at hd)
    rw [List.append_nil] at h
    exact h

/-! ## Small evaluation helpers -/

theorem pbind_none {α β : Type} {p : Parser α} {f : α → Parser β} {i : Input}
    (h : p i = none) : pbind p f i = none := by
  show (match p i with | none => none | some (r, a) => f a r) = none
  rw [h]

theorem pmap_none {α β : Type} {f : α → β} {p : Parser α} {i : Input}
    (h : p i = none) : pmap f p i = none := by
  show (match p i with | none => none | some (r, a) => some (r, f a)) = none
  rw [h]

theorem opt_none_of {α : Type} {p : Parser α} {i : Input} (h : p i = none) :
    opt p i = some (i, none) := by
  show (match p i with | none => some (i, none) | some (r, a) => some (r, some a)) =
    some (i, none)
  rw [h]

theorem opt_some_of {α : Type} {p : Parser α} {i r : Input} {a : α}
    (h : p i = some (r, a)) : opt p i = some (r, some a) := by
  show (match p i with | none => some (i, none) | some (r, a) => some (r, some a)) =
    some (r, some a)
  rw [h]

theorem chr_eq (c : Char) (t : Input) : chr c (c :: t) = some (t, c) := by
  unfold chr
  dsimp only
  rw [if_pos rfl]

theorem chr_ne {c d : Char} (t : Input) (h : d ≠ c) : chr c (d :: t) = none := by
  unfold chr
  dsimp only
  rw [if_neg h]

theorem ws_eq {α : Type} {p : Parser α} {i r : Input} {a : α}
    (h : p i = some (r, a)) : ws p i = some (r.dropWhile isMultispace, a) := by
  rw [ws, terminated]
  exact pbind_eq_some.mpr ⟨r, a, h,
    pmap_eq_some.mpr ⟨r.takeWhile isMultispace, rfl, rfl⟩⟩

theorem ws_none {α : Type} {p : Parser α} {i : Input} (h : p i = none) :
    ws p i = none := by
  rw [ws, terminated]
  exact pbind_none h

theorem delimitedP_assemble {α β γ : Type} {p : Parser α} {q : Parser β}
    {r : Parser γ} {i m1 m2 rfin : Input} {a : α} {b : β} {c : γ}
    (hp : p i = some (m1, a)) (hq : q m1 = some (m2, b))
    (hr : r m2 = some (rfin, c)) : delimitedP p q r i = some (rfin, b) := by
  rw [delimitedP, preceded]
  exact pbind_eq_some.mpr ⟨m1, a, hp, pbind_eq_some.mpr ⟨m2, b, hq,
    pmap_eq_some.mpr ⟨c, hr, rfl⟩⟩⟩

theorem sepPair_assemble {α β γ : Type} {p : Parser α} {sep : Parser β}
    {q : Parser γ} {i m1 m2 rfin : Input} {a : α} {b : β} {c : γ}
    (hp : p i = some (m1, a)) (hs : sep m1 = some (m2, b))
    (hq : q m2 = some (rfin, c)) : sepPair p sep q i = some (rfin, (a, c)) := by
  rw [sepPair]
  exact pbind_eq_some.mpr ⟨m1, a, hp, by
    rw [preceded]
    exact pbind_eq_some.mpr ⟨m2, b, hs, pmap_eq_some.mpr ⟨c, hq, rfl⟩⟩⟩

theorem identStart_not_multispace {c : Char} (h : isIdentStart c = true) :
    isMultispace c = false := by
  cases hm : isMultispace c
  · rfl
  · exfalso
    unfold isMultispace at hm
    have hcases : c = ' ' ∨ c = '\t' ∨ c = '\r' ∨ c = '\n' := by
      rcases Bool.or_eq_true_iff.mp hm with h1 | h1
      · rcases Bool.or_eq_true_iff.mp h1 with h2 | h2
        · rcases Bool.or_eq_true_iff.mp h2 with h3 | h3
          · exact Or.inl (eq_of_beq h3)
          · exact Or.inr (Or.inl (eq_of_beq h3))
        · exact Or.inr (Or.inr (Or.inl (eq_of_beq h2)))
      · exact Or.inr (Or.inr (Or.inr (eq_of_beq h1)))
    rcases hcases with h1 | h1 | h1 | h1 <;> (rw [h1] at h; exact absurd h (by decide))

theorem identName_start {c : Char} {cs : Input} (h : isIdentName (c :: cs) = true) :
    isIdentStart c = true := by
  simp only [isIdentName] at h
  exact (Bool.and_eq_true_iff.mp h).1

theorem dropWhile_multispace_identName {w : Input} (hw : isIdentName w = true)
    (z : Input) : (w ++ z).dropWhile isMultispace = w ++ z := by
  cases w with
  | nil => exact absurd hw (by simp [isIdentName])
  | cons c cs =>
    exact List.dropWhile_cons_of_neg
      (by simp [identStart_not_multispace (identName_start hw)])

theorem chr_none_identName {c : Char} {w z : Input} (hw : isIdentName w = true)
    (hc : isIdentStart c = false) : chr c (w ++ z) = none := by
  cases w with
  | nil => exact absurd hw (by simp [isIdentName])
  | cons d ds =>
    refine chr_ne _ (fun he => ?_)
    rw [he] at hw
    rw [identName_start hw] at hc
    cases hc

/-! ## The `fn whitespace` rule always fails

Its `many0` iterates `alt((eol_comment, value((), multispace0)))`, whose
second alternative succeeds on every input, consuming nothing whenever the
input does not begin with whitespace; nom's `many0` turns a
zero-consumption success into an error, so the loop inevitably errors.
-/

theorem wsCommentStep_total (i : Input) : ∃ r, wsCommentStep i = some (r, ()) := by
  cases he : eol_comment i with
  | some y =>
    obtain ⟨r, u⟩ := y
    cases u
    exact ⟨r, by rw [wsCommentStep]; exact alt_cons_of_some he⟩
  | none =>
    refine ⟨i.dropWhile isMultispace, ?_⟩
    rw [wsCommentStep, alt_cons_of_none he]
    exact alt_cons_of_some rfl

theorem many0_wsCommentStep_none : ∀ (k : Nat) (i : Input), i.length ≤ k →
    many0 wsCommentStep i = none := by
  intro k
  induction k with
  | zero =>
    intro i hlen
    have hi : i = [] := List.eq_nil_of_length_eq_zero (Nat.le_zero.mp hlen)
    subst hi
    rfl
  | succ k ih =>
    intro i hlen
    obtain ⟨r, hstep⟩ := wsCommentStep_total i
    rw [many0_unfold, hstep]
    dsimp only
    by_cases hlt : r.length < i.length
    · rw [if_pos hlt, ih r (by omega)]
    · rw [if_neg hlt]

/-- `fn whitespace` fails on every input. -/
theorem whitespace_none (i : Input) : whitespace i = none := by
  rw [whitespace, pvalue]
  exact pmap_none (many0_wsCommentStep_none i.length i (Nat.le_refl _))

/-! ## Claim theorems -/

/-- C1 counterexample: with trailing garbage after one complete
declaration, the top-level `ast` rule does not fail — it succeeds,
returning a Program covering only the prefix, with the garbage as the
unconsumed remainder. -/
theorem c1_counterexample :
    ast 30 (s "let main: I32 ~\n -1\n end ???") =
      some (s "???", AST.mk [(s "main", Decl.func (Func.mk (Kind.mk [] (s "I32"))
        [Instr.expr (Expr.prim (Prim.i64 (-1)))]))]) ∧
    s "???" ≠ ([] : Input) := by
  exact ⟨rfl, by decide⟩

/-- C1 (amended): the top-level rule parses one-or-more declarations and
returns the unconsumed remainder (always a suffix of the input) instead of
requiring exhaustion.  An input whose first declaration is malformed (for
example a missing closing `end`) fails outright, while trailing garbage —
or a malformed later declaration — is left as remainder, the Program
covering only the parsed prefix. -/
theorem c1_ast_prefix_semantics :
    (∀ (n : Nat) (i r : Input) (a : AST), ast n i = some (r, a) → r <:+ i) ∧
    ast 30 (s "let main: I32 ~\n -1\n") = none ∧
    ast 30 (s "let main: I32 ~\n -1\n end ???") =
      some (s "???", AST.mk [(s "main", Decl.func (Func.mk (Kind.mk [] (s "I32"))
        [Instr.expr (Expr.prim (Prim.i64 (-1)))]))]) := by
  exact ⟨fun n i r a h => sound_ast n i r a h, rfl, rfl⟩

theorem c1_witness : (s "???" : Input) <:+ s "let main: I32 ~\n -1\n end ???" :=
  c1_ast_prefix_semantics.1 30 (s "let main: I32 ~\n -1\n end ???") (s "???")
    (AST.mk [(s "main", Decl.func (Func.mk (Kind.mk [] (s "I32"))
      [Instr.expr (Expr.prim (Prim.i64 (-1)))]))]) (by rfl)

/-- C2: the statement rule either succeeds — returning a remainder that is
a suffix of its input, the cursor only ever advancing — or fails returning
`none`, consuming nothing; and its ordered alternation backtracks: when the
leading alternatives fail, the rule equals the alternation of the remaining
alternatives applied to the exact original input. -/
theorem c2_instr_backtracking :
    (∀ (n : Nat) (i r : Input) (t : Instr), instrF n i = some (r, t) → r <:+ i) ∧
    (∀ (n : Nat) (i : Input),
      (instrAlt1 n i = none →
        instrF (n + 1) i =
          alt [instrAlt2 n, instrAlt3 n, instrAlt4 n, instrAlt5 n, instrAlt6 n] i) ∧
      (instrAlt1 n i = none → instrAlt2 n i = none →
        instrF (n + 1) i =
          alt [instrAlt3 n, instrAlt4 n, instrAlt5 n, instrAlt6 n] i)) := by
  constructor
  · intro n i r t h
    exact sound_instrF n i r t h
  · intro n i
    constructor
    · intro h1
      exact alt_cons_of_none h1
    · intro h1 h2
      exact (alt_cons_of_none h1).trans (alt_cons_of_none h2)

theorem c2_witness :
    (([] : Input) <:+ s "break\n") ∧
    instrF 6 (s "x 1\n") =
      alt [instrAlt2 5, instrAlt3 5, instrAlt4 5, instrAlt5 5, instrAlt6 5]
        (s "x 1\n") :=
  ⟨c2_instr_backtracking.1 6 (s "break\n") [] (Instr.keyword Keyword.brk) (by rfl),
   (c2_instr_backtracking.2 5 (s "x 1\n")).1 (by rfl)⟩

/-- C3: whenever the branch rule's optional `else` group is present, the
produced path list is the `if` pair first, then the `elsif` pairs in source
order, then a final pair whose condition is the boolean-true primitive and
whose body is the `else` group's statements. -/
theorem c3_branch_else_true_pair (n : Nat) (i i1 i2 i3 r : Input)
    (hd : Expr × List Instr) (mid : List (Expr × List Instr))
    (es : List Instr) (x : List Char)
    (h1 : branchHead n i = some (i1, hd))
    (h2 : branchMiddle n i1 = some (i2, mid))
    (h3 : branchElse n i2 = some (i3, some es))
    (h4 : ws (tag (s "end")) i3 = some (r, x)) :
    branchF (n + 1) i = some (r, hd :: mid ++ [(Expr.prim (Prim.bool true), es)]) := by
  have e : branchF (n + 1) i =
      pbind (branchHead n) (fun hd0 =>
        pbind (branchMiddle n) (fun mid0 =>
          pbind (branchElse n) (fun lastO =>
            pvalue (hd0 :: mid0 ++
                (match lastO with
                 | some is => [(Expr.prim (Prim.bool true), is)]
                 | none => []))
              (ws (tag (s "end")))))) i := rfl
  rw [e]
  exact pbind_eq_some.mpr ⟨i1, hd, h1, pbind_eq_some.mpr ⟨i2, mid, h2,
    pbind_eq_some.mpr ⟨i3, some es, h3, pmap_eq_some.mpr ⟨x, h4, rfl⟩⟩⟩⟩

theorem c3_witness :
    branchF 9 (s "if c then\n@f 1\nelsif d then\n@f 2\nelse\n@f 0\nend") =
      some ([],
        [(Expr.name (s "c"), [Instr.expr (Expr.call (s "f") [Expr.prim (Prim.i64 1)])]),
         (Expr.name (s "d"), [Instr.expr (Expr.call (s "f") [Expr.prim (Prim.i64 2)])]),
         (Expr.prim (Prim.bool true),
          [Instr.expr (Expr.call (s "f") [Expr.prim (Prim.i64 0)])])]) :=
  c3_branch_else_true_pair 8
    (s "if c then\n@f 1\nelsif d then\n@f 2\nelse\n@f 0\nend")
    (s "elsif d then\n@f 2\nelse\n@f 0\nend")
    (s "else\n@f 0\nend")
    (s "end")
    []
    (Expr.name (s "c"), [Instr.expr (Expr.call (s "f") [Expr.prim (Prim.i64 1)])])
    [(Expr.name (s "d"), [Instr.expr (Expr.call (s "f") [Expr.prim (Prim.i64 2)])])]
    [Instr.expr (Expr.call (s "f") [Expr.prim (Prim.i64 0)])]
    (s "end")
    (by rfl) (by rfl) (by rfl) (by rfl)

theorem pbind_some {α β : Type} {p : Parser α} {f : α → Parser β} {i r : Input}
    {a : α} (h : p i = some (r, a)) : pbind p f i = f a r := by
  show (match p i with | none => none | some (r, a) => f a r) = f a r
  rw [h]

theorem tag_prefix (t rest : Input) : tag t (t ++ rest) = some (rest, t) := by
  have hpre : t.isPrefixOf (t ++ rest) = true :=
    List.isPrefixOf_iff_prefix.mpr (List.prefix_append t rest)
  rw [tag, if_pos hpre, List.drop_left]

theorem tag_ne {c d : Char} (ts v : Input) (h : c ≠ d) :
    tag (c :: ts) (d :: v) = none := by
  rw [tag, if_neg]
  intro hcon
  simp only [List.isPrefixOf, Bool.and_eq_true, beq_iff_eq] at hcon
  exact h hcon.1

/-- When the parenthesized alternative cannot start (no opening paren) and
the primitive alternative succeeds, the expression rule returns the
primitive and then trims trailing line spaces. -/
theorem exprF_via_prim (n : Nat) {i r : Input} {e : Expr}
    (hparen : chr '(' i = none) (hp : prim i = some (r, e)) :
    exprF (n + 1) i = some (r.dropWhile isLinespace, e) := by
  simp only [exprF]
  rw [terminated]
  refine pbind_eq_some.mpr ⟨r, e, ?_, pmap_eq_some.mpr ⟨r.takeWhile isLinespace, rfl, rfl⟩⟩
  rw [alt_cons_of_none (by rw [delimitedP, preceded]; exact pbind_none (ws_none hparen))]
  exact alt_cons_of_some (alt_cons_of_some hp)

theorem binderP_tilde (v : Input) :
    binderP ('~' :: v) = some (v.dropWhile isMultispace, s "~") := by
  rw [binderP]
  apply alt_cons_of_some
  have h : tag (s "~") ('~' :: v) = some (v, s "~") := by
    show tag (s "~") (s "~" ++ v) = some (v, s "~")
    exact tag_prefix _ v
  exact ws_eq h

theorem binderP_eqsign (v : Input) :
    binderP ('=' :: v) = some (v.dropWhile isMultispace, s "=") := by
  rw [binderP]
  have hfail : ws (tag (s "~")) ('=' :: v) = none := by
    apply ws_none
    show tag ('~' :: ([] : Input)) ('=' :: v) = none
    exact tag_ne _ _ (by decide)
  rw [alt_cons_of_none hfail]
  apply alt_cons_of_some
  have h : tag (s "=") ('=' :: v) = some (v, s "=") := by
    show tag (s "=") (s "=" ++ v) = some (v, s "=")
    exact tag_prefix _ v
  exact ws_eq h


/-- C4: the binder symbols `~` and `=` are fully interchangeable.  The
shared binder alternation succeeds on either symbol leaving the same
remainder, so the binder-to-newline tail used by `bind` and `assign` and
the binder-to-`end` tail used by `func` return identical results when the
binder position holds `~` as when it holds `=`; moreover `bind`, `assign`
and `func` are definitionally composed from those tails, so the resulting
trees coincide and so does success or failure. -/
theorem c4_binder_interchangeable :
    (∀ (n : Nat) (v : Input),
      binderExprNl (n + 1) ('~' :: v) = binderExprNl (n + 1) ('=' :: v) ∧
      binderBody n ('~' :: v) = binderBody n ('=' :: v)) ∧
    (∀ (n : Nat) (i : Input),
      bindF (n + 1) i =
        pbind (ws (tag (s "let"))) (fun _ =>
          pbind (opt (ws (tag (s "mut")))) (fun mutO =>
            pbind (ws name_typed) (fun it =>
              pmap (mkBind mutO it) (binderExprNl n)))) i ∧
      assignF (n + 1) i =
        pbind (ws name) (fun nm =>
          pmap (fun e => Instr.assign nm e) (binderExprNl n)) i ∧
      func n i =
        pbind (ws (tag (s "let"))) (fun _ =>
          pbind (ws name) (fun nm =>
            pbind (ws kind) (fun k =>
              pmap (fun body => (nm, Decl.func (Func.mk k body)))
                (binderBody n)))) i) := by
  constructor
  · intro n v
    constructor
    · simp only [binderExprNl]
      rw [pbind_some (binderP_tilde v), pbind_some (binderP_eqsign v)]
    · simp only [binderBody]
      rw [pbind_some (binderP_tilde v), pbind_some (binderP_eqsign v)]
  · intro n i
    refine ⟨?_, ?_, ?_⟩
    · simp only [bindF]
    · simp only [assignF]
    · simp only [func]

/-- C5 counterexample: a comment between two tokens of a valid statement is
not skippable filler anywhere in the grammar — the statement parses without
the comment and fails with it, and the dedicated whitespace-and-comment
rule itself rejects the comment text. -/
theorem c5_counterexample :
    instrF 30 (s "@dump 1\n") =
      some ([], Instr.expr (Expr.call (s "dump") [Expr.prim (Prim.i64 1)])) ∧
    instrF 30 (s "@dump 1 // c\n") = none ∧
    whitespace (s "// c\n") = none := by
  exact ⟨rfl, rfl, whitespace_none _⟩

/-- C5 (amended): the line and block comment recognizers accept comments in
isolation, but no grammar rule invokes them: the only skip combinator the
rules use is `ws` (plain whitespace), and the combined
whitespace-and-comment rule `whitespace` fails on every input (its `many0`
hits nom's zero-consumption error), so a comment inserted between two
tokens of a valid statement makes the parse fail rather than being
skipped. -/
theorem c5_comment_rules_unwired :
    eol_comment (s "// hi") = some ([], ()) ∧
    inline_comment (s "/* hi */") = some ([], ()) ∧
    (∀ i : Input, whitespace i = none) ∧
    instrF 30 (s "@dump 1\n") =
      some ([], Instr.expr (Expr.call (s "dump") [Expr.prim (Prim.i64 1)])) ∧
    instrF 30 (s "@dump 1 // c\n") = none := by
  exact ⟨rfl, rfl, whitespace_none, rfl, rfl⟩

/-- C6: the identifier rule accepts exactly the words that start with an
alphabetic character or underscore, continue with alphanumerics or
underscores, and are not in the reserved list `let`, `end`, `true`,
`false`, `if`, `then`, `else`, `loop`, `break`; in particular `elsif`,
`do`, `for`, `while`, `in`, `match`, `with`, `type`, `actor`, `and`, `or`,
`not` are all accepted as identifiers. -/
theorem c6_name_characterization :
    (∀ w : Input, name w = some ([], w) ↔
      isIdentName w = true ∧ nameKeywords.contains w = false) ∧
    ([s "elsif", s "do", s "for", s "while", s "in", s "match", s "with",
      s "type", s "actor", s "and", s "or", s "not"].all
        (fun w => name w == some ([], w))) = true := by
  exact ⟨name_exact_iff, by decide⟩

theorem c6_witness : name (s "elsif") = some ([], s "elsif") :=
  (c6_name_characterization.1 (s "elsif")).mpr ⟨by decide, by decide⟩

/-- C7: wherever an expression is expected, the words `true` and `false`
parse as boolean primitive literals — for every continuation of the input,
the expression rule returns the boolean primitive, never a name reference —
because the primitive alternative precedes the name alternative; the
identifier rule itself rejects both words. -/
theorem c7_true_false_boolean :
    (∀ (n : Nat) (rest : Input),
      exprF (n + 1) (s "true" ++ rest) =
        some (rest.dropWhile isLinespace, Expr.prim (Prim.bool true)) ∧
      exprF (n + 1) (s "false" ++ rest) =
        some (rest.dropWhile isLinespace, Expr.prim (Prim.bool false))) ∧
    name (s "true") = none ∧ name (s "false") = none := by
  constructor
  · intro n rest
    constructor
    · apply exprF_via_prim
      · show chr '(' ('t' :: (s "rue" ++ rest)) = none
        exact chr_ne _ (by decide)
      · show prim (s "true" ++ rest) = some (rest, Expr.prim (Prim.bool true))
        rw [prim]
        apply alt_cons_of_some
        refine pmap_eq_some.mpr ⟨true, ?_, rfl⟩
        apply alt_cons_of_some
        rw [pvalue]
        exact pmap_eq_some.mpr ⟨s "true", tag_prefix _ rest, rfl⟩
    · apply exprF_via_prim
      · show chr '(' ('f' :: (s "alse" ++ rest)) = none
        exact chr_ne _ (by decide)
      · show prim (s "false" ++ rest) = some (rest, Expr.prim (Prim.bool false))
        rw [prim]
        apply alt_cons_of_some
        refine pmap_eq_some.mpr ⟨false, ?_, rfl⟩
        have htrue : pvalue true (tag (s "true")) (s "false" ++ rest) = none := by
          rw [pvalue]
          apply pmap_none
          show tag ('t' :: s "rue") ('f' :: (s "alse" ++ rest)) = none
          exact tag_ne _ _ (by decide)
        rw [alt_cons_of_none htrue]
        apply alt_cons_of_some
        rw [pvalue]
        exact pmap_eq_some.mpr ⟨s "false", tag_prefix _ rest, rfl⟩
  · exact ⟨rfl, rfl⟩

/-- C8: the statement rule on `"@dump 666 my_favourite_number\n"` consumes
the whole input and yields an Expression statement wrapping a Call whose
callee is `dump` and whose arguments are exactly the integer primitive 666
and the name reference `my_favourite_number`; the call is recognized only
because of the `@` sigil placed immediately before the callee name — with
a space after the sigil, or with no sigil at all, the statement rule
rejects the input. -/
theorem c8_call_statement :
    instrF 30 (s "@dump 666 my_favourite_number\n") =
      some ([], Instr.expr (Expr.call (s "dump")
        [Expr.prim (Prim.i64 666), Expr.name (s "my_favourite_number")])) ∧
    instrF 30 (s "@ dump 666 my_favourite_number\n") = none ∧
    instrF 30 (s "dump 666 my_favourite_number\n") = none := by
  exact ⟨rfl, rfl, rfl⟩

/-- C9: `"truex\n"` is a legal identifier followed by a newline, yet the
statement rule rejects it: inside the expression rule the primitive
alternative succeeds on the keyword prefix `true` alone (so the name
alternative is never tried), the statement's newline terminator then fails
at `x`, and no other statement alternative matches. -/
theorem c9_keyword_prefix_rejected :
    name (s "truex") = some ([], s "truex") ∧
    prim (s "truex\n") = some (s "x\n", Expr.prim (Prim.bool true)) ∧
    exprF 30 (s "truex\n") = some (s "x\n", Expr.prim (Prim.bool true)) ∧
    instrF 30 (s "truex\n") = none := by
  exact ⟨rfl, rfl, rfl, rfl⟩

/-- C10: the typed-name rule treats its parentheses as independently
optional: for every identifier-shaped, non-reserved name pair `n`/`t`, the
inputs `n: t`, `(n: t)`, `(n: t` and `n: t)` all parse to the same
(name, type) pair, unbalanced parentheses included. -/
theorem c10_name_typed_parens (n t : Input)
    (hn1 : isIdentName n = true) (hn2 : nameKeywords.contains n = false)
    (ht1 : isIdentName t = true) (ht2 : nameKeywords.contains t = false) :
    name_typed (n ++ (s ": " ++ t)) = some ([], (n, t)) ∧
    name_typed ('(' :: (n ++ (s ": " ++ (t ++ [')'])))) = some ([], (n, t)) ∧
    name_typed ('(' :: (n ++ (s ": " ++ t))) = some ([], (n, t)) ∧
    name_typed (n ++ (s ": " ++ (t ++ [')']))) = some ([], (n, t)) := by
  have hmiddle : ∀ z : Input, stopsIdent z →
      sepPair (ws name) (ws (chr ':')) name (n ++ (':' :: (' ' :: (t ++ z)))) =
        some (z, (n, t)) := by
    intro z hz
    have hname1 : ws name (n ++ (':' :: (' ' :: (t ++ z)))) =
        some (':' :: (' ' :: (t ++ z)), n) := by
      have h := ws_eq (name_complete n (':' :: (' ' :: (t ++ z))) hn1 hn2
        (by intro d hd; simp only [List.head?_cons, Option.some.injEq] at hd
            subst hd; decide))
      rwa [List.dropWhile_cons_of_neg (by decide)] at h
    have hcolon : ws (chr ':') (':' :: (' ' :: (t ++ z))) = some (t ++ z, ':') := by
      have h := ws_eq (chr_eq ':' (' ' :: (t ++ z)))
      rw [List.dropWhile_cons_of_pos (by decide)] at h
      rwa [dropWhile_multispace_identName ht1 z] at h
    exact sepPair_assemble hname1 hcolon (name_complete t z ht1 ht2 hz)
  have hstopNil : stopsIdent [] := by intro d hd; simp at hd
  have hstopParen : stopsIdent [')'] := by
    intro d hd
    simp only [List.head?_cons, Option.some.injEq] at hd
    subst hd
    decide
  have hopenNone : ∀ X : Input, opt (ws (chr '(')) (n ++ X) = some (n ++ X, none) :=
    fun X => opt_none_of (ws_none (chr_none_identName hn1 (by decide)))
  have hopenSome : ∀ X : Input, opt (ws (chr '(')) ('(' :: (n ++ X)) =
      some (n ++ X, some '(') := by
    intro X
    have h := ws_eq (chr_eq '(' (n ++ X))
    rw [dropWhile_multispace_identName hn1 X] at h
    exact opt_some_of h
  have hcloseNil : opt (ws (chr ')')) ([] : Input) = some ([], none) :=
    opt_none_of (ws_none rfl)
  have hcloseParen : opt (ws (chr ')')) [')'] = some ([], some ')') := by
    have h := ws_eq (chr_eq ')' [])
    exact opt_some_of h
  have hA := hmiddle [] hstopNil
  rw [List.append_nil] at hA
  have hB := hmiddle [')'] hstopParen
  refine ⟨?_, ?_, ?_, ?_⟩
  · exact delimitedP_assemble (hopenNone (':' :: (' ' :: t))) hA hcloseNil
  · exact delimitedP_assemble (hopenSome (':' :: (' ' :: (t ++ [')'])))) hB hcloseParen
  · exact delimitedP_assemble (hopenSome (':' :: (' ' :: t))) hA hcloseNil
  · exact delimitedP_assemble (hopenNone (':' :: (' ' :: (t ++ [')'])))) hB hcloseParen

theorem c10_witness :
    name_typed (s "x" ++ (s ": " ++ s "I64")) = some ([], (s "x", s "I64")) :=
  (c10_name_typed_parens (s "x") (s "I64") (by decide) (by decide) (by decide)
    (by decide)).1
